import Mathlib

/-!
Verification of the LineReader chunked-read / line-assembly engine
(mgmeyers/LineReader, file `part_002` of the sources).

The engine reads a file in fixed-size chunks via an asynchronous
`FileReader`, re-assembles line boundaries straddling chunk boundaries,
and delivers lines to a consumer one at a time; the consumer calls an
acknowledgment continuation to get the next line.

The embedding below models one complete read session as a pure function
producing the chronological log of observable events: slice requests
issued to the chunk source, `line` events, the `error` event, and the
`end` event.  The JavaScript control flow (read → onload → _step →
consumer ack → _step → … → read) is single-threaded, so the whole
session is deterministic given the file content, the chunk size, the
consumer's behavior (here: a policy saying in which line callbacks the
consumer calls `abort()`; the consumer always acknowledges), and an
optional injected read failure.

The recursion read → onload → read is not structural, so the model
carries a fuel argument counting chunk reads; `content.length + 2` reads
always suffice when `chunkSize ≥ 1` (each read advances `readPos` by
`chunkSize`, and reads are issued only while `readPos ≤ content.length`,
so at most `⌈length/chunkSize⌉ + 1 ≤ length + 2` reads occur).  The
top-level entry points supply that fuel; a `fuelOut` outcome marks an
exhausted budget and never occurs in the reachable runs we reason about.
-/

namespace LineReader

/-- Observable events of a session: a slice request `readReq start stop`
issued to the chunk source (`file.slice(readPos, readPos + chunkSize)`),
a `line` event with its payload, the `error` event with the failure
cause reported by the chunk source, and the `end` event. -/
inductive Ev : Type
  | line (s : List Char)
  | endEv
  | errEv (cause : Nat)
  | readReq (start stop : Nat)
  deriving DecidableEq, Repr

/-- How a modelled run finished: normally (`ok`), with an uncaught
JavaScript `TypeError` (`crashed`, from dereferencing the `null` result
of `chunk.match`), or with the model's read budget exhausted
(`fuelOut`, which also covers the genuine non-termination of a
`chunkSize = 0` instance). -/
inductive Outcome : Type
  | ok
  | crashed
  | fuelOut
  deriving DecidableEq, Repr

/-- Result of a modelled session: the chronological event log and the
way the run finished. -/
structure Res : Type where
  log : List Ev
  out : Outcome
  deriving DecidableEq, Repr

/-- Prefix new events onto a later part of the session's log. -/
def prependLog (evs : List Ev) (r : Res) : Res :=
  ⟨evs ++ r.log, r.out⟩

/-- Line-terminator characters per the splitting regexes of
`reader.onload`: carriage return and newline. -/
def isTerm (ch : Char) : Bool :=
  ch = '\r' || ch = '\n'

/-- Test `/\r|\n/.test(internals.chunk)` at part_002 line 75. -/
def containsTerm (c : List Char) : Bool :=
  c.any isTerm

/-- Maximal runs of non-terminator characters, in order: the list of
matches of the global regex `/[^\r\n]+/g` (part_002 line 79) when there
is at least one match.  A non-terminator character either starts a new
run (when followed by a terminator or the end) or is prepended to the
run started by the following character. -/
def splitRuns : List Char → List (List Char)
  | [] => []
  | ch :: rest =>
    if isTerm ch then splitRuns rest
    else
      match splitRuns rest, rest.head? with
      | _, none => [[ch]]
      | rs, some ch2 =>
        if isTerm ch2 then [ch] :: rs
        else
          match rs with
          | r :: rs' => (ch :: r) :: rs'
          | [] => [[ch]]

/-- The value of `internals.chunk.match(/[^\r\n]+/g)`: `none` models the
JavaScript `null` returned when the chunk contains no non-terminator
character. -/
def jsMatch (c : List Char) : Option (List (List Char)) :=
  if splitRuns c = [] then none else some (splitRuns c)

/-- LineReader#_hasMoreData (part_002 lines 251-254):
`internals.readPos <= internals.fileLength`. -/
def hasMoreData (readPos fileLength : Nat) : Bool :=
  readPos ≤ fileLength

/-- The decoded text of `file.slice(start, stop)` (part_002 line 183):
the byte range is clamped to the file's length, and we identify decoded
characters with bytes. -/
def jsSlice (content : List Char) (start stop : Nat) : List Char :=
  (content.take stop).drop start

/-- Consumer behavior: `pol k = true` means the consumer calls
`abort()` inside the callback of the k-th delivered line (counting all
lines delivered in the session), before invoking the acknowledgment.
The consumer always acknowledges each line. -/
def Policy : Type := Nat → Bool

/-- What the queue-stepping loop hands back to the read loop. -/
inductive StepOut : Type
  | toRead (canRead : Bool) (k : Nat)
  | ended
  deriving DecidableEq, Repr

/-- The repeated LineReader#_step / consumer-acknowledgment loop
(part_002 lines 212-243) applied to the queue `internals.lines`, for a
consumer that always acknowledges and aborts according to `pol`:

* queue empty (`internals.lines.length === 0`): control returns to the
  read loop (which consults `_hasMoreData`), with the current `canRead`
  and line counter;
* queue non-empty and `internals.canRead`: the head line is emitted,
  the consumer possibly calls `abort()` (clearing `canRead`), then
  acknowledges, re-entering `_step`;
* queue non-empty and `!internals.canRead`: the `end` event is emitted
  and the session stops (queued lines are discarded). -/
def stepAll (pol : Policy) : List (List Char) → Bool → Nat → List Ev × StepOut
  | [], canRead, k => ([], .toRead canRead k)
  | l :: rest, canRead, k =>
    if canRead then
      let canRead' := canRead && !(pol k)
      let (evs, o) := stepAll pol rest canRead' (k + 1)
      (Ev.line l :: evs, o)
    else ([Ev.endEv], .ended)

/-- One read request and everything that follows it, following part_002.

`LineReader#read` (without a file argument, lines 183-193) slices
`[readPos, readPos + chunkSize)`, advances `readPos` by `chunkSize`
before the read resolves, and issues the asynchronous read; `failC`
counts down injected chunk-source failures: `some 0` makes this request
fail, firing `FileReader#onerror` (lines 134-140), which emits
`error` with the failure cause and does nothing else.

On success `FileReader#onload` (lines 64-128) runs:
* `internals.chunk += this.result`;
* if the chunk contains `\r` or `\n` (line 75): `internals.lines =
  chunk.match(/[^\r\n]+/g)`; when the match is `null` the later
  `lines.pop()` / `lines.length` dereference throws a `TypeError`
  (modelled as the `crashed` outcome).  Otherwise, if `_hasMoreData()`,
  the last line is held back as the new chunk unless the raw chunk ends
  in `'\n'` (lines 85-93), and `_step()` walks the queue; when the queue
  is exhausted `_step` issues the next read (`_hasMoreData` is still
  true since `readPos` did not change).  Without more data the whole
  match becomes the queue and after it drains `_step` emits `end`;
* if the chunk contains no terminator (lines 103-127): with more data,
  read again; otherwise a non-empty chunk is emitted as a final `line`
  whose acknowledgment is `_emit.bind(self, 'end')` (note: this emit is
  not guarded by `canRead`), and an empty chunk yields `end` directly. -/
def runRead (content : List Char) (chunkSize : Nat) (pol : Policy) (cause : Nat) :
    Nat → Option Nat → Nat → List Char → Bool → Nat → Res
  | 0, _, _, _, _, _ => ⟨[], .fuelOut⟩
  | fuel + 1, failC, readPos, chunk, canRead, k =>
    let req := Ev.readReq readPos (readPos + chunkSize)
    if failC = some 0 then
      ⟨[req, Ev.errEv cause], .ok⟩
    else
      let failC' := failC.map (· - 1)
      let slice := jsSlice content readPos (readPos + chunkSize)
      let readPos' := readPos + chunkSize
      let c' := chunk ++ slice
      if containsTerm c' then
        match jsMatch c' with
        | none => ⟨[req], .crashed⟩
        | some ls =>
          if hasMoreData readPos' content.length then
            let keep := if c'.getLast? = some '\n' then [] else ls.getLastD []
            let queue := if c'.getLast? = some '\n' then ls else ls.dropLast
            match stepAll pol queue canRead k with
            | (evs, .ended) => ⟨req :: evs, .ok⟩
            | (evs, .toRead canRead' k') =>
              prependLog (req :: evs)
                (runRead content chunkSize pol cause fuel failC' readPos' keep canRead' k')
          else
            match stepAll pol ls canRead k with
            | (evs, .ended) => ⟨req :: evs, .ok⟩
            | (evs, .toRead _ _) => ⟨req :: (evs ++ [Ev.endEv]), .ok⟩
      else
        if hasMoreData readPos' content.length then
          prependLog [req]
            (runRead content chunkSize pol cause fuel failC' readPos' c' canRead k)
        else if c' ≠ [] then
          ⟨[req, Ev.line c', Ev.endEv], .ok⟩
        else
          ⟨[req, Ev.endEv], .ok⟩

/-- Consumer-relevant internal state of a LineReader instance that
survives across sessions.  `readPos`, `chunk` and `lines` are the
leftovers of any previous session; `canRead` is cleared by
`LineReader#abort` and never reset. -/
structure Internals : Type where
  readPos : Nat
  chunk : List Char
  lines : List (List Char)
  canRead : Bool
  deriving DecidableEq, Repr

/-- The internal state of a freshly constructed LineReader
(part_002 lines 33-58). -/
def freshInternals : Internals :=
  ⟨0, [], [], true⟩

/-- LineReader#read with a file argument (part_002 lines 164-194) on an
instance whose current internal state is `st`: the session state
(`readPos`, `chunk`, `lines`) is re-initialized, `canRead` is whatever
it was (abort never resets it), and the first chunk read is issued. -/
def readFile (st : Internals) (content : List Char) (chunkSize : Nat)
    (pol : Policy) (failAt : Option Nat) (cause : Nat) : Res :=
  runRead content chunkSize pol cause (content.length + 2) failAt 0 [] st.canRead 0

/-- A full session on a fresh instance with an always-acknowledging,
never-aborting consumer and a fault-free chunk source. -/
def readSimple (content : List Char) (chunkSize : Nat) : Res :=
  readFile freshInternals content chunkSize (fun _ => false) none 0

/-- A full session on a fresh instance where the chunk source fails the
(j+1)-st slice request (0-based index `j`) with the given cause;
consumer always acknowledges and never aborts. -/
def readWithFailure (content : List Char) (chunkSize : Nat) (j : Nat) (cause : Nat) : Res :=
  readFile freshInternals content chunkSize (fun _ => false) (some j) cause

/-- Is an event a slice request (engine → chunk source)? -/
def isReadReq : Ev → Bool
  | .readReq _ _ => true
  | _ => false

/-- The consumer-visible part of the log: `line`, `error` and `end`
events, with the slice requests to the chunk source filtered out. -/
def delivered (r : Res) : List Ev :=
  r.log.filter (fun e => !isReadReq e)

/-- The payloads of the delivered `line` events, in order. -/
def deliveredLines (r : Res) : List (List Char) :=
  r.log.filterMap (fun e => match e with | .line s => some s | _ => none)

/-- Convenient abbreviation for the run predicate of `splitRuns`. -/
def nonTerm : Char → Bool := fun c => !isTerm c

/-- No two adjacent newline characters. -/
def noAdjNl : List Char → Bool
  | [] => true
  | [_] => true
  | a :: b :: rest => !(a = '\n' && b = '\n') && noAdjNl (b :: rest)

/-- Contents free of carriage returns, of empty lines and of a leading
newline.  The engine mishandles all three for some chunk sizes:
`chunk.match(/[^\r\n]+/g)` silently drops empty lines and returns
`null` (crashing the handler) on an all-terminator chunk, and a `\r`
landing at the end of a chunk is swallowed by the held-back remainder. -/
def Clean (l : List Char) : Prop :=
  ('\r' ∉ l) ∧ noAdjNl l = true ∧ l.head? ≠ some '\n'

instance (l : List Char) : Decidable (Clean l) := by
  unfold Clean
  infer_instance

/-- Content consisting of the given lines, each terminated by a
newline character. -/
def joinLines (L : List (List Char)) : List Char :=
  (L.map (fun l => l ++ ['\n'])).flatten

/-! ### Properties of the line-splitting regex model -/

theorem takeWhile_append_stop {p : Char → Bool} {l₁ : List Char} (l₂ : List Char)
    (x : Char) (hx : x ∈ l₁) (hpx : p x = false) :
    (l₁ ++ l₂).takeWhile p = l₁.takeWhile p := by
  induction l₁ with
  | nil => cases hx
  | cons a t ih =>
    by_cases ha : p a
    · rcases List.mem_cons.mp hx with rfl | hx'
      · simp [ha] at hpx
      · simp [List.takeWhile_cons_of_pos ha, ih hx']
    · simp [List.takeWhile_cons_of_neg ha]

theorem dropWhile_append_stop {p : Char → Bool} {l₁ : List Char} (l₂ : List Char)
    (x : Char) (hx : x ∈ l₁) (hpx : p x = false) :
    (l₁ ++ l₂).dropWhile p = l₁.dropWhile p ++ l₂ := by
  induction l₁ with
  | nil => cases hx
  | cons a t ih =>
    by_cases ha : p a
    · rcases List.mem_cons.mp hx with rfl | hx'
      · simp [ha] at hpx
      · simp [List.dropWhile_cons_of_pos ha, ih hx']
    · simp [List.dropWhile_cons_of_neg ha]

@[simp] theorem splitRuns_nil : splitRuns [] = [] := rfl

theorem splitRuns_cons_term {ch : Char} (l : List Char) (h : isTerm ch = true) :
    splitRuns (ch :: l) = splitRuns l := by
  simp [splitRuns, h]

theorem splitRuns_cons_nonterm {ch : Char} (l : List Char) (h : isTerm ch = false) :
    splitRuns (ch :: l) =
      (ch :: l.takeWhile nonTerm) :: splitRuns (l.dropWhile nonTerm) := by
  induction l generalizing ch with
  | nil => simp [splitRuns, h, nonTerm]
  | cons ch2 l' ih =>
    by_cases h2 : isTerm ch2 = true
    · rw [splitRuns]
      simp [h, h2, nonTerm]
    · rw [splitRuns]
      simp only [h, Bool.false_eq_true, if_false, List.head?_cons]
      rw [ih (show isTerm ch2 = false by simpa using h2)]
      simp [h2, nonTerm, List.takeWhile_cons_of_pos, List.dropWhile_cons_of_pos]

theorem splitRuns_singleRun {l : List Char} (hne : l ≠ [])
    (h : ∀ ch ∈ l, isTerm ch = false) : splitRuns l = [l] := by
  cases l with
  | nil => cases hne rfl
  | cons ch t =>
    rw [splitRuns_cons_nonterm t (h ch (List.mem_cons_self _ _))]
    have ht : ∀ x ∈ t, nonTerm x = true := by
      intro x hx
      simp [nonTerm, h x (List.mem_cons_of_mem _ hx)]
    rw [List.takeWhile_eq_self_iff.mpr ht] at *
    rw [List.dropWhile_eq_nil_iff.mpr (by intro x hx; exact ht x hx)]
    simp

theorem splitRuns_ne_nil_of_head {ch : Char} {l : List Char}
    (hh : l.head? = some ch) (h : isTerm ch = false) : splitRuns l ≠ [] := by
  cases l with
  | nil => simp at hh
  | cons a t =>
    obtain rfl : a = ch := by simpa using hh
    rw [splitRuns_cons_nonterm t h]
    simp

theorem mem_splitRuns :
    ∀ (n : Nat) (l : List Char), l.length ≤ n → ∀ r ∈ splitRuns l,
      r ≠ [] ∧ ∀ ch ∈ r, isTerm ch = false := by
  intro n
  induction n with
  | zero =>
    intro l hl r hr
    rw [List.length_eq_zero.mp (Nat.le_zero.mp hl)] at hr
    simp at hr
  | succ n ih =>
    intro l hl r hr
    cases l with
    | nil => simp at hr
    | cons ch t =>
      by_cases hch : isTerm ch = true
      · rw [splitRuns_cons_term t hch] at hr
        exact ih t (by simpa using Nat.le_of_succ_le_succ hl) r hr
      · rw [splitRuns_cons_nonterm t (by simpa using hch)] at hr
        rcases List.mem_cons.mp hr with rfl | hr'
        · refine ⟨by simp, ?_⟩
          intro c hc
          rcases List.mem_cons.mp hc with rfl | hc'
          · simpa using hch
          · have := List.mem_takeWhile_imp hc'
            simpa [nonTerm] using this
        · exact ih (t.dropWhile nonTerm)
            (le_trans ((List.dropWhile_sublist nonTerm).length_le)
              (by simpa using Nat.le_of_succ_le_succ hl))
            r hr'
theorem dropWhile_ne_nil {p : Char → Bool} {l : List Char} (x : Char)
    (hx : x ∈ l) (hpx : p x = false) : l.dropWhile p ≠ [] := by
  intro hnil
  have := List.dropWhile_eq_nil_iff.mp hnil x hx
  rw [hpx] at this
  cases this

theorem getLast?_dropWhile {p : Char → Bool} {l : List Char} (x : Char)
    (hx : x ∈ l) (hpx : p x = false) : (l.dropWhile p).getLast? = l.getLast? := by
  obtain ⟨pre, hpre⟩ := List.dropWhile_suffix (l := l) p
  conv_rhs => rw [← hpre]
  rw [List.getLast?_append]
  cases hlast : (l.dropWhile p).getLast? with
  | none => exact absurd (List.getLast?_eq_none_iff.mp hlast) (dropWhile_ne_nil x hx hpx)
  | some a => rfl

theorem splitRuns_ne_nil_of_mem :
    ∀ (n : Nat) (l : List Char), l.length ≤ n → ∀ x ∈ l, isTerm x = false →
      splitRuns l ≠ [] := by
  intro n
  induction n with
  | zero =>
    intro l hl x hx _
    rw [List.length_eq_zero.mp (Nat.le_zero.mp hl)] at hx
    cases hx
  | succ n ih =>
    intro l hl x hx hxt
    cases l with
    | nil => cases hx
    | cons ch rest =>
      by_cases hch : isTerm ch = true
      · rw [splitRuns_cons_term _ hch]
        rcases List.mem_cons.mp hx with rfl | hx'
        · rw [hxt] at hch; cases hch
        · exact ih rest (by simpa using Nat.le_of_succ_le_succ hl) x hx' hxt
      · rw [splitRuns_cons_nonterm _ (by simpa using hch)]
        simp

theorem splitRuns_append_term :
    ∀ (n : Nat) (l : List Char), l.length ≤ n → ∀ t, l.getLast? = some t → isTerm t = true →
      ∀ y, splitRuns (l ++ y) = splitRuns l ++ splitRuns y := by
  intro n
  induction n with
  | zero =>
    intro l hl t ht _ y
    rw [List.length_eq_zero.mp (Nat.le_zero.mp hl)] at ht
    simp at ht
  | succ n ih =>
    intro l hl t ht htt y
    cases l with
    | nil => simp at ht
    | cons ch rest =>
      by_cases hch : isTerm ch = true
      · cases rest with
        | nil =>
          obtain rfl : ch = t := by simpa using ht
          simp [splitRuns_cons_term _ htt]
        | cons b bs =>
          rw [List.cons_append, splitRuns_cons_term _ hch, splitRuns_cons_term _ hch]
          exact ih (b :: bs) (by simpa using Nat.le_of_succ_le_succ hl) t
            (by simpa using ht) htt y
      · have hrest : rest ≠ [] := by
          rintro rfl
          obtain rfl : ch = t := by simpa using ht
          exact hch htt
        have htr : rest.getLast? = some t := by
          cases rest with
          | nil => cases hrest rfl
          | cons b bs => simpa using ht
        have htm : t ∈ rest := List.mem_of_getLast?_eq_some htr
        have hnt : nonTerm t = false := by simp [nonTerm, htt]
        rw [List.cons_append,
          splitRuns_cons_nonterm _ (by simpa using hch),
          splitRuns_cons_nonterm _ (by simpa using hch),
          takeWhile_append_stop y t htm hnt,
          dropWhile_append_stop y t htm hnt]
        rw [ih (rest.dropWhile nonTerm)
          (le_trans ((List.dropWhile_sublist nonTerm).length_le)
            (by simpa using Nat.le_of_succ_le_succ hl))
          t (by rw [getLast?_dropWhile t htm hnt]; exact htr) htt y]
        simp

theorem splitRuns_append_nonterm :
    ∀ (n : Nat) (l : List Char), l.length ≤ n → ∀ t, l.getLast? = some t → isTerm t = false →
      ∀ y, splitRuns (l ++ y) =
        (splitRuns l).dropLast ++ splitRuns ((splitRuns l).getLastD [] ++ y) := by
  intro n
  induction n with
  | zero =>
    intro l hl t ht _ y
    rw [List.length_eq_zero.mp (Nat.le_zero.mp hl)] at ht
    simp at ht
  | succ n ih =>
    intro l hl t ht htt y
    cases l with
    | nil => simp at ht
    | cons ch rest =>
      by_cases hch : isTerm ch = true
      · have hrest : rest ≠ [] := by
          rintro rfl
          obtain rfl : ch = t := by simpa using ht
          rw [htt] at hch
          cases hch
        have htr : rest.getLast? = some t := by
          cases rest with
          | nil => cases hrest rfl
          | cons b bs => simpa using ht
        rw [List.cons_append, splitRuns_cons_term _ hch, splitRuns_cons_term _ hch]
        exact ih rest (by simpa using Nat.le_of_succ_le_succ hl) t htr htt y
      · rw [List.cons_append,
          splitRuns_cons_nonterm _ (by simpa using hch),
          splitRuns_cons_nonterm _ (by simpa using hch)]
        by_cases hterm : ∃ x ∈ rest, nonTerm x = false
        · obtain ⟨x, hx, hpx⟩ := hterm
          have hrest : rest ≠ [] := by rintro rfl; cases hx
          have htr : rest.getLast? = some t := by
            cases rest with
            | nil => cases hrest rfl
            | cons b bs => simpa using ht
          have hD_last : (rest.dropWhile nonTerm).getLast? = some t := by
            rw [getLast?_dropWhile x hx hpx]; exact htr
          have hD_len : (rest.dropWhile nonTerm).length ≤ n :=
            le_trans ((List.dropWhile_sublist nonTerm).length_le)
              (by simpa using Nat.le_of_succ_le_succ hl)
          have hsne : splitRuns (rest.dropWhile nonTerm) ≠ [] :=
            splitRuns_ne_nil_of_mem n (rest.dropWhile nonTerm) hD_len t
              (List.mem_of_getLast?_eq_some hD_last) htt
          rw [takeWhile_append_stop y x hx hpx, dropWhile_append_stop y x hx hpx,
            ih (rest.dropWhile nonTerm) hD_len t hD_last htt y]
          cases hsd : splitRuns (rest.dropWhile nonTerm) with
          | nil => cases hsne hsd
          | cons d ds =>
            simp [List.getLastD_eq_getLast?, List.getLast?_cons_cons]
        · push_neg at hterm
          have hall : ∀ x ∈ rest, nonTerm x = true := by
            intro x hx
            simpa using hterm x hx
          have h1 : List.takeWhile nonTerm rest = rest :=
            List.takeWhile_eq_self_iff.mpr hall
          have h2 : List.dropWhile nonTerm rest = [] :=
            List.dropWhile_eq_nil_iff.mpr hall
          rw [h1, h2]
          simp only [splitRuns_nil, List.dropLast_single, List.getLastD_eq_getLast?,
            List.getLast?_singleton, Option.getD_some, List.nil_append]
          rw [List.cons_append, splitRuns_cons_nonterm _ (by simpa using hch)]

/-! ### Clean contents -/

@[simp] theorem noAdjNl_nil : noAdjNl [] = true := rfl

theorem noAdjNl_cons_of_ne {a : Char} (ha : a ≠ '\n') {l : List Char}
    (hl : noAdjNl l = true) : noAdjNl (a :: l) = true := by
  cases l with
  | nil => rfl
  | cons b t => simp [noAdjNl, ha, hl]

theorem noAdjNl_tail {a : Char} {l : List Char} (h : noAdjNl (a :: l) = true) :
    noAdjNl l = true := by
  cases l with
  | nil => rfl
  | cons b t =>
    simp only [noAdjNl, Bool.and_eq_true] at h
    exact h.2

theorem noAdjNl_append_right {x y : List Char} (h : noAdjNl (x ++ y) = true) :
    noAdjNl y = true := by
  induction x with
  | nil => exact h
  | cons a t ih => exact ih (noAdjNl_tail h)

theorem noAdjNl_junction {x y : List Char} (h : noAdjNl (x ++ y) = true)
    (hx : x.getLast? = some '\n') : y.head? ≠ some '\n' := by
  induction x with
  | nil => simp at hx
  | cons a t ih =>
    cases t with
    | nil =>
      obtain rfl : a = '\n' := by simpa using hx
      cases y with
      | nil => simp
      | cons b u =>
        intro hb
        obtain rfl : b = '\n' := by simpa using hb
        simp [noAdjNl] at h
    | cons a2 t2 =>
      exact ih (noAdjNl_tail h) (by simpa using hx)

theorem noAdjNl_append_left {x y : List Char} (hx : ∀ ch ∈ x, ch ≠ '\n')
    (hy : noAdjNl y = true) : noAdjNl (x ++ y) = true := by
  induction x with
  | nil => exact hy
  | cons a t ih =>
    exact noAdjNl_cons_of_ne (hx a (List.mem_cons_self _ _))
      (ih (fun ch hch => hx ch (List.mem_cons_of_mem _ hch)))

/-! ### Small facts about the consumer loop and the log projections -/

@[simp] theorem isReadReq_line (s : List Char) : isReadReq (Ev.line s) = false := rfl

@[simp] theorem isReadReq_endEv : isReadReq Ev.endEv = false := rfl

@[simp] theorem isReadReq_errEv (c : Nat) : isReadReq (Ev.errEv c) = false := rfl

@[simp] theorem isReadReq_readReq (a b : Nat) : isReadReq (Ev.readReq a b) = true := rfl

theorem stepAll_noAbort (queue : List (List Char)) (k : Nat) :
    stepAll (fun _ => false) queue true k =
      (queue.map Ev.line, .toRead true (k + queue.length)) := by
  induction queue generalizing k with
  | nil => simp [stepAll]
  | cons l rest ih =>
    simp only [stepAll, if_true, Bool.not_false, Bool.and_true, ih (k + 1),
      List.map_cons, List.length_cons]
    have : k + 1 + rest.length = k + (rest.length + 1) := by omega
    rw [this]

theorem delivered_prependLog (evs : List Ev) (r : Res) :
    delivered (prependLog evs r) =
      evs.filter (fun e => !isReadReq e) ++ delivered r := by
  simp [delivered, prependLog, List.filter_append]

theorem delivered_mk (log : List Ev) (o : Outcome) :
    delivered ⟨log, o⟩ = log.filter (fun e => !isReadReq e) := rfl

theorem containsTerm_eq_false {c : List Char} (h : containsTerm c = false) :
    ∀ ch ∈ c, isTerm ch = false := by
  intro ch hch
  by_cases hterm : isTerm ch = true
  · exact absurd (List.any_eq_true.mpr ⟨ch, hch, hterm⟩) (by rw [containsTerm] at h; simp [h])
  · simpa using hterm

theorem hasMoreData_iff {a b : Nat} : hasMoreData a b = true ↔ a ≤ b := by
  simp [hasMoreData]

theorem jsSlice_eq (content : List Char) (p cs : Nat) :
    jsSlice content p (p + cs) = (content.drop p).take cs := by
  rw [jsSlice, List.drop_take]
  congr 1
  omega

theorem filter_notReadReq_map_line (ls : List (List Char)) :
    (ls.map Ev.line).filter (fun e => !isReadReq e) = ls.map Ev.line := by
  induction ls with
  | nil => rfl
  | cons l t ih => simp [ih]

theorem getLastD_mem {α : Type} (l : List α) (d : α) (h : l ≠ []) : l.getLastD d ∈ l := by
  rw [List.getLastD_eq_getLast?, List.getLast?_eq_getLast l h]
  simp [List.getLast_mem]

/-- Main invariant: on clean contents the engine, resumed at read
position `p` with a terminator-free pending chunk `c`, delivers exactly
the maximal terminator-free runs of the remaining text `c ++
content.drop p` as `line` events, followed by a single `end` event, and
finishes normally — for every chunk size ≥ 1 and independently of the
line counter. -/
theorem runRead_clean :
    ∀ (fuel : Nat) (content : List Char) (cs p : Nat) (c : List Char) (k : Nat),
      1 ≤ cs → p ≤ content.length → content.length + 2 ≤ fuel + p →
      (∀ ch ∈ c, isTerm ch = false) →
      Clean (c ++ content.drop p) →
      delivered (runRead content cs (fun _ => false) 0 fuel none p c true k) =
        (splitRuns (c ++ content.drop p)).map Ev.line ++ [Ev.endEv] ∧
      (runRead content cs (fun _ => false) 0 fuel none p c true k).out = .ok := by
  intro fuel
  induction fuel with
  | zero =>
    intro content cs p c k hcs hp hfuel _ _
    omega
  | succ fuel ih =>
    intro content cs p c k hcs hp hfuel hc hclean
    have hdropdrop : content.drop (p + cs) = (content.drop p).drop cs := by
      rw [List.drop_drop]
    have hsplitrest :
        (content.drop p).take cs ++ (content.drop p).drop cs = content.drop p :=
      List.take_append_drop cs (content.drop p)
    have hrem : (c ++ (content.drop p).take cs) ++ content.drop (p + cs) =
        c ++ content.drop p := by
      rw [hdropdrop, List.append_assoc, hsplitrest]
    have hmemrem : ∀ ch ∈ c ++ (content.drop p).take cs, ch ∈ c ++ content.drop p := by
      intro ch hch
      rcases List.mem_append.mp hch with h | h
      · exact List.mem_append.mpr (Or.inl h)
      · exact List.mem_append.mpr (Or.inr (List.take_subset _ _ h))
    simp only [runRead]
    rw [if_neg (by simp : ¬ (none : Option Nat) = some 0)]
    simp only [Option.map_none', jsSlice_eq]
    by_cases hterm : containsTerm (c ++ (content.drop p).take cs) = true
    · -- the accumulated chunk contains a terminator
      rw [if_pos hterm]
      -- the head of the accumulated chunk is not a terminator
      have hhead : ∃ ch0, (c ++ (content.drop p).take cs).head? = some ch0 ∧
          isTerm ch0 = false := by
        cases c with
        | cons ch0 c0 =>
          exact ⟨ch0, by simp, hc ch0 (List.mem_cons_self _ _)⟩
        | nil =>
          cases hrest : content.drop p with
          | nil =>
            rw [hrest] at hterm
            simp [containsTerm] at hterm
          | cons r0 rrest =>
            refine ⟨r0, ?_, ?_⟩
            · cases cs with
              | zero => omega
              | succ n => simp [List.take_succ_cons]
            · have hr0rem : r0 ∈ ([] : List Char) ++ content.drop p := by
                rw [hrest]; simp
              have hnr : r0 ≠ '\r' := by
                intro hr; exact hclean.1 (hr ▸ hr0rem)
              have hnn : r0 ≠ '\n' := by
                intro hn
                apply hclean.2.2
                rw [hrest]
                simp [hn]
              simp [isTerm, hnr, hnn]
      obtain ⟨ch0, hh0, hch0⟩ := hhead
      have hne : splitRuns (c ++ (content.drop p).take cs) ≠ [] :=
        splitRuns_ne_nil_of_head hh0 hch0
      have hjs : jsMatch (c ++ (content.drop p).take cs) =
          some (splitRuns (c ++ (content.drop p).take cs)) := by
        rw [jsMatch, if_neg hne]
      simp only [hjs]
      by_cases hmore : p + cs ≤ content.length
      · -- more data remains: last run is held back unless chunk ends in '\n'
        rw [if_pos (hasMoreData_iff.mpr hmore)]
        have hcne : c ++ (content.drop p).take cs ≠ [] := by
          intro hnil
          rw [hnil] at hterm
          simp [containsTerm] at hterm
        obtain ⟨tl, hlast⟩ : ∃ tl, (c ++ (content.drop p).take cs).getLast? = some tl := by
          cases hgl : (c ++ (content.drop p).take cs).getLast? with
          | none => exact absurd (List.getLast?_eq_none_iff.mp hgl) hcne
          | some a => exact ⟨a, rfl⟩
        have htlr : tl ≠ '\r' := by
          intro hr
          exact hclean.1 (hr ▸ hmemrem tl (List.mem_of_getLast?_eq_some hlast))
        have hrest'cl : noAdjNl (content.drop (p + cs)) = true := by
          have := hclean.2.1
          rw [← hrem] at this
          exact noAdjNl_append_right this
        have hrest'r : ∀ ch ∈ content.drop (p + cs), ch ≠ '\r' := by
          intro ch hch hr
          apply hclean.1
          rw [← hrem]
          exact hr ▸ List.mem_append.mpr (Or.inr hch)
        by_cases htl : tl = '\n'
        · -- chunk ends with '\n': nothing is held back
          subst htl
          rw [if_pos hlast, if_pos hlast]
          simp only [stepAll_noAbort]
          have hih := ih content cs (p + cs) [] (k + (splitRuns (c ++ (content.drop p).take cs)).length)
            hcs hmore (by omega) (by intro ch hch; cases hch) ?_
          · obtain ⟨ihd, iho⟩ := hih
            constructor
            · rw [delivered_prependLog, ihd]
              have hsr : splitRuns (c ++ content.drop p) =
                  splitRuns (c ++ (content.drop p).take cs) ++
                    splitRuns (content.drop (p + cs)) := by
                rw [← hrem]
                exact splitRuns_append_term (c ++ (content.drop p).take cs).length _
                  le_rfl _ hlast rfl _
              rw [hsr]
              simp [filter_notReadReq_map_line]
            · simpa [prependLog] using iho
          · refine ⟨?_, ?_, ?_⟩
            · intro hmem
              apply hclean.1
              rw [← hrem]
              simp only [List.nil_append] at hmem
              exact List.mem_append.mpr (Or.inr hmem)
            · simpa using hrest'cl
            · simp only [List.nil_append]
              have := hclean.2.1
              rw [← hrem] at this
              exact noAdjNl_junction this hlast
        · -- chunk ends with an ordinary character: last run held back
          have hcond : ¬ (c ++ (content.drop p).take cs).getLast? = some '\n' := by
            rw [hlast]
            simp [htl]
          rw [if_neg hcond, if_neg hcond]
          simp only [stepAll_noAbort]
          have htlt : isTerm tl = false := by
            simp [isTerm, htl, htlr]
          have hkeep := mem_splitRuns (c ++ (content.drop p).take cs).length
            (c ++ (content.drop p).take cs) le_rfl
            ((splitRuns (c ++ (content.drop p).take cs)).getLastD [])
            (getLastD_mem _ _ hne)
          obtain ⟨hkeepne, hkeepnt⟩ := hkeep
          have hih := ih content cs (p + cs)
            ((splitRuns (c ++ (content.drop p).take cs)).getLastD [])
            (k + ((splitRuns (c ++ (content.drop p).take cs)).dropLast).length)
            hcs hmore (by omega) hkeepnt ?_
          · obtain ⟨ihd, iho⟩ := hih
            constructor
            · rw [delivered_prependLog, ihd]
              have hsr : splitRuns (c ++ content.drop p) =
                  (splitRuns (c ++ (content.drop p).take cs)).dropLast ++
                    splitRuns ((splitRuns (c ++ (content.drop p).take cs)).getLastD [] ++
                      content.drop (p + cs)) := by
                rw [← hrem]
                exact splitRuns_append_nonterm (c ++ (content.drop p).take cs).length _
                  le_rfl tl hlast htlt _
              rw [hsr]
              simp [filter_notReadReq_map_line]
              intro a ha
              obtain ⟨s, _, rfl⟩ := List.mem_map.mp ((List.dropLast_sublist _).subset ha)
              rfl
            · simpa [prependLog] using iho
          · refine ⟨?_, ?_, ?_⟩
            · intro hmem
              rcases List.mem_append.mp hmem with h | h
              · have := hkeepnt '\r' h
                simp [isTerm] at this
              · exact hrest'r '\r' h rfl
            · exact noAdjNl_append_left
                (fun ch hch => by
                  have := hkeepnt ch hch
                  intro hn
                  rw [hn] at this
                  simp [isTerm] at this)
                hrest'cl
            · cases hk : (splitRuns (c ++ (content.drop p).take cs)).getLastD [] with
              | nil => exact absurd hk hkeepne
              | cons kh kt =>
                have hkh := hkeepnt kh (by rw [hk]; exact List.mem_cons_self _ _)
                intro hhd
                simp only [hk, List.cons_append, List.head?_cons, Option.some.injEq] at hhd
                rw [hhd] at hkh
                simp [isTerm] at hkh
      · -- no more data: the whole remainder was this chunk
        rw [if_neg (by rw [hasMoreData_iff]; exact hmore)]
        simp only [stepAll_noAbort]
        have hsl : (content.drop p).take cs = content.drop p :=
          List.take_of_length_le (by rw [List.length_drop]; omega)
        rw [hsl]
        constructor
        · rw [delivered_mk]
          simp [filter_notReadReq_map_line, List.filter_append]
        · trivial
    · -- no terminator in the accumulated chunk
      have htermf : containsTerm (c ++ (content.drop p).take cs) = false := by
        simpa using hterm
      rw [if_neg (by rw [htermf]; exact Bool.false_ne_true)]
      by_cases hmore : p + cs ≤ content.length
      · rw [if_pos (hasMoreData_iff.mpr hmore)]
        have hih := ih content cs (p + cs) (c ++ (content.drop p).take cs) k
          hcs hmore (by omega) (containsTerm_eq_false htermf) (by rw [hrem]; exact hclean)
        obtain ⟨ihd, iho⟩ := hih
        constructor
        · rw [delivered_prependLog, ihd, hrem]
          simp
        · simpa [prependLog] using iho
      · rw [if_neg (by rw [hasMoreData_iff]; exact hmore)]
        have hsl : (content.drop p).take cs = content.drop p :=
          List.take_of_length_le (by rw [List.length_drop]; omega)
        rw [hsl]
        by_cases hnil : c ++ content.drop p = []
        · rw [if_neg (by rw [hnil]; simp)]
          rw [hnil]
          exact ⟨rfl, rfl⟩
        · rw [if_pos hnil]
          constructor
          · have hall : ∀ ch2 ∈ c ++ content.drop p, isTerm ch2 = false := by
              have hcf := containsTerm_eq_false htermf
              rw [hsl] at hcf
              exact hcf
            rw [delivered_mk, splitRuns_singleRun hnil hall]
            simp
          · trivial

/-- Top-level corollary of the main invariant: a fresh session on clean
content delivers its terminator-separated lines followed by `end`. -/
theorem readSimple_clean (content : List Char) (cs : Nat) (hcs : 1 ≤ cs)
    (hcl : Clean content) :
    delivered (readSimple content cs) = (splitRuns content).map Ev.line ++ [Ev.endEv] ∧
    (readSimple content cs).out = .ok := by
  have h := runRead_clean (content.length + 2) content cs 0 [] 0 hcs (by omega) (by omega)
    (by intro ch hch; cases hch) (by simpa using hcl)
  simpa [readSimple, readFile, freshInternals] using h

theorem splitRuns_append_single_term (l : List Char)
    (h : ∀ ch ∈ l, isTerm ch = false) (t : Char) (ht : isTerm t = true) :
    splitRuns (l ++ [t]) = splitRuns l := by
  cases l with
  | nil => simp [splitRuns_cons_term _ ht]
  | cons ch rest =>
    have hch : isTerm ch = false := h ch (List.mem_cons_self _ _)
    have hrest : ∀ x ∈ rest, nonTerm x = true := by
      intro x hx
      simp [nonTerm, h x (List.mem_cons_of_mem _ hx)]
    rw [List.cons_append, splitRuns_cons_nonterm _ hch, splitRuns_cons_nonterm _ hch,
      List.takeWhile_append_of_pos hrest, List.dropWhile_append_of_pos hrest,
      List.takeWhile_eq_self_iff.mpr hrest, List.dropWhile_eq_nil_iff.mpr hrest,
      List.takeWhile_cons_of_neg (by simp [nonTerm, ht]),
      List.dropWhile_cons_of_neg (by simp [nonTerm, ht])]
    rw [splitRuns_cons_term _ ht]
    simp

theorem splitRuns_joinLines (L : List (List Char))
    (h : ∀ l ∈ L, l ≠ [] ∧ ∀ ch ∈ l, isTerm ch = false) :
    splitRuns (joinLines L) = L := by
  induction L with
  | nil => simp [joinLines]
  | cons l rest ih =>
    obtain ⟨hne, hnt⟩ := h l (List.mem_cons_self _ _)
    have hj : joinLines (l :: rest) = (l ++ ['\n']) ++ joinLines rest := by
      simp [joinLines]
    rw [hj,
      splitRuns_append_term (l ++ ['\n']).length _ le_rfl '\n' (List.getLast?_concat _)
        (by decide) _,
      splitRuns_append_single_term l hnt '\n' (by decide), splitRuns_singleRun hne hnt,
      ih (fun l2 hl2 => h l2 (List.mem_cons_of_mem _ hl2))]
    rfl

theorem noAdjNl_cons_nl {J : List Char} (hh : J.head? ≠ some '\n')
    (hJ : noAdjNl J = true) : noAdjNl ('\n' :: J) = true := by
  cases J with
  | nil => rfl
  | cons b bs =>
    have hb : ¬ b = '\n' := by
      intro hbn
      exact hh (by rw [hbn]; rfl)
    simp [noAdjNl, hb, hJ]

theorem joinLines_head (L : List (List Char))
    (h : ∀ l ∈ L, l ≠ [] ∧ ∀ ch ∈ l, isTerm ch = false) :
    (joinLines L).head? ≠ some '\n' := by
  cases L with
  | nil => simp [joinLines]
  | cons l rest =>
    obtain ⟨hne, hnt⟩ := h l (List.mem_cons_self _ _)
    cases l with
    | nil => cases hne rfl
    | cons ch l0 =>
      have := hnt ch (List.mem_cons_self _ _)
      intro hhd
      simp only [joinLines, List.map_cons, List.flatten_cons, List.cons_append,
        List.head?_cons, Option.some.injEq] at hhd
      rw [hhd] at this
      simp [isTerm] at this

theorem clean_joinLines (L : List (List Char))
    (h : ∀ l ∈ L, l ≠ [] ∧ ∀ ch ∈ l, isTerm ch = false) :
    Clean (joinLines L) := by
  refine ⟨?_, ?_, joinLines_head L h⟩
  · intro hmem
    rw [joinLines] at hmem
    obtain ⟨piece, hpiece, hmem2⟩ := List.mem_flatten.mp hmem
    obtain ⟨l, hl, rfl⟩ := List.mem_map.mp hpiece
    rcases List.mem_append.mp hmem2 with hl2 | hl2
    · have := (h l hl).2 '\r' hl2
      simp [isTerm] at this
    · simp at hl2
  · induction L with
    | nil => simp [joinLines]
    | cons l rest ih =>
      obtain ⟨hne, hnt⟩ := h l (List.mem_cons_self _ _)
      have hj : joinLines (l :: rest) = l ++ ('\n' :: joinLines rest) := by
        simp [joinLines]
      rw [hj]
      refine noAdjNl_append_left ?_ ?_
      · intro ch hch hn
        have := hnt ch hch
        rw [hn] at this
        simp [isTerm] at this
      · exact noAdjNl_cons_nl
          (joinLines_head rest (fun l2 hl2 => h l2 (List.mem_cons_of_mem _ hl2)))
          (ih (fun l2 hl2 => h l2 (List.mem_cons_of_mem _ hl2)))

/-- A session whose first slice request already covers the whole file
(and at least one byte more, so that `_hasMoreData` is false after the
advance): everything happens in one `onload` round. -/
theorem runRead_one_chunk (content : List Char) (cs fuel : Nat)
    (hbig : content.length + 1 ≤ cs)
    (hterm : containsTerm content = true)
    (hne : splitRuns content ≠ []) :
    runRead content cs (fun _ => false) 0 (fuel + 1) none 0 [] true 0 =
      ⟨Ev.readReq 0 (0 + cs) ::
        ((splitRuns content).map Ev.line ++ [Ev.endEv]), .ok⟩ := by
  simp only [runRead]
  rw [if_neg (by simp : ¬ (none : Option Nat) = some 0)]
  have hslice : jsSlice content 0 (0 + cs) = content := by
    rw [jsSlice_eq, List.drop_zero, List.take_of_length_le (by omega)]
  rw [hslice]
  simp only [List.nil_append]
  rw [if_pos hterm]
  have hjs : jsMatch content = some (splitRuns content) := by
    rw [jsMatch, if_neg hne]
  simp only [hjs]
  rw [if_neg (by rw [hasMoreData_iff]; omega)]
  simp only [stepAll_noAbort]

/-- From the state where `readPosition` has landed exactly on
`totalLength` with an empty pending buffer, exactly one further (empty)
slice request is issued and its empty decoded result leads directly to
the `end` event. -/
theorem runRead_at_end (content : List Char) (cs fuel k : Nat) (pol : Policy)
    (cause : Nat) (hcs : 1 ≤ cs) :
    runRead content cs pol cause (fuel + 1) none content.length [] true k =
      ⟨[Ev.readReq content.length (content.length + cs), Ev.endEv], .ok⟩ := by
  simp only [runRead]
  rw [if_neg (by simp : ¬ (none : Option Nat) = some 0)]
  have hslice : jsSlice content content.length (content.length + cs) = [] := by
    rw [jsSlice_eq]
    simp
  rw [hslice]
  simp only [List.append_nil]
  rw [if_neg (by rw [containsTerm]; simp)]
  rw [if_neg (by rw [hasMoreData_iff]; omega)]
  simp

theorem errEv_not_mem_map_line (cause : Nat) (ls : List (List Char)) :
    Ev.errEv cause ∉ ls.map Ev.line := by
  intro h
  obtain ⟨s, _, hs⟩ := List.mem_map.mp h
  cases hs

theorem endEv_not_mem_map_line (ls : List (List Char)) :
    Ev.endEv ∉ ls.map Ev.line := by
  intro h
  obtain ⟨s, _, hs⟩ := List.mem_map.mp h
  cases hs

/-- Shape of a session in which the chunk source fails the (j+1)-st
slice request (0-based countdown `j`): if the `error` event fires at
all, the log is some number of `line` events and the slice requests
`[p + i·cs, p + i·cs + cs)` for `i < j`, followed by the failing
request and the `error` event carrying the injected cause; no `end`
event ever fires and no request beyond the failing one is issued. -/
theorem runRead_fail_shape :
    ∀ (fuel : Nat) (content : List Char) (cs cause j p : Nat) (c : List Char) (k : Nat),
      Ev.errEv cause ∈ (runRead content cs (fun _ => false) cause fuel (some j) p c true k).log →
      (runRead content cs (fun _ => false) cause fuel (some j) p c true k).out = .ok ∧
      Ev.endEv ∉ (runRead content cs (fun _ => false) cause fuel (some j) p c true k).log ∧
      ∃ L, (runRead content cs (fun _ => false) cause fuel (some j) p c true k).log =
          L ++ [Ev.readReq (p + j * cs) (p + j * cs + cs), Ev.errEv cause] ∧
        ∀ e ∈ L, (∃ s, e = Ev.line s) ∨
          ∃ i, i < j ∧ e = Ev.readReq (p + i * cs) (p + i * cs + cs) := by
  intro fuel
  induction fuel with
  | zero =>
    intro content cs cause j p c k h
    simp [runRead] at h
  | succ fuel ih =>
    intro content cs cause j p c k h
    cases j with
    | zero =>
      rw [runRead, if_pos rfl] at h ⊢
      refine ⟨rfl, by simp, [], by simp, by simp⟩
    | succ jj =>
      have harith : p + cs + jj * cs = p + (jj + 1) * cs := by
        rw [Nat.succ_mul]
        omega
      rw [runRead, if_neg (by simp)] at h ⊢
      simp only [Option.map_some', Nat.add_sub_cancel] at h ⊢
      by_cases hterm : containsTerm (c ++ jsSlice content p (p + cs)) = true
      · rw [if_pos hterm] at h ⊢
        cases hjm : jsMatch (c ++ jsSlice content p (p + cs)) with
        | none =>
          rw [hjm] at h
          simp at h
        | some ls =>
          simp only [hjm] at h ⊢
          by_cases hmore : hasMoreData (p + cs) content.length = true
          · rw [if_pos hmore] at h ⊢
            simp only [stepAll_noAbort] at h ⊢
            rw [prependLog] at h ⊢
            simp only [List.mem_cons, List.mem_append, or_assoc] at h
            rcases h with h | h
            · cases h
            rcases h with h | h
            · exact absurd h (errEv_not_mem_map_line cause _)
            obtain ⟨hok, hend, L', hlog, hmem⟩ := ih content cs cause jj (p + cs) _ _ h
            refine ⟨hok, ?_, Ev.readReq p (p + cs) ::
              ((if (c ++ jsSlice content p (p + cs)).getLast? = some '\n' then ls
                else ls.dropLast).map Ev.line ++ L'), ?_, ?_⟩
            · simp only [List.mem_cons, List.mem_append, or_assoc]
              rintro (hcon | hcon | hcon)
              · cases hcon
              · exact endEv_not_mem_map_line _ hcon
              · exact hend hcon
            · simp only [List.cons_append, List.append_assoc]
              rw [hlog]
              rw [harith]
            · intro e he
              rcases List.mem_cons.mp he with rfl | he
              · refine Or.inr ⟨0, by omega, by simp⟩
              rcases List.mem_append.mp he with he | he
              · obtain ⟨s, _, rfl⟩ := List.mem_map.mp he
                exact Or.inl ⟨s, rfl⟩
              · rcases hmem e he with hline | ⟨i, hi, rfl⟩
                · exact Or.inl hline
                · refine Or.inr ⟨i + 1, by omega, ?_⟩
                  have : p + cs + i * cs = p + (i + 1) * cs := by
                    rw [Nat.succ_mul]
                    omega
                  rw [this]
          · rw [if_neg hmore] at h
            simp only [stepAll_noAbort] at h
            simp only [List.mem_cons, List.mem_append, or_assoc] at h
            rcases h with h | h | h
            · cases h
            · exact absurd h (errEv_not_mem_map_line cause _)
            · simp at h
      · rw [if_neg hterm] at h ⊢
        by_cases hmore : hasMoreData (p + cs) content.length = true
        · rw [if_pos hmore] at h ⊢
          rw [prependLog] at h ⊢
          simp only [List.cons_append, List.nil_append, List.mem_cons] at h
          rcases h with h | h
          · cases h
          obtain ⟨hok, hend, L', hlog, hmem⟩ := ih content cs cause jj (p + cs) _ _ h
          refine ⟨hok, ?_, Ev.readReq p (p + cs) :: L', ?_, ?_⟩
          · simp only [List.cons_append, List.nil_append, List.mem_cons]
            rintro (hcon | hcon)
            · cases hcon
            · exact hend hcon
          · simp only [List.cons_append, List.nil_append]
            rw [hlog, harith]
          · intro e he
            rcases List.mem_cons.mp he with rfl | he
            · refine Or.inr ⟨0, by omega, by simp⟩
            · rcases hmem e he with hline | ⟨i, hi, rfl⟩
              · exact Or.inl hline
              · refine Or.inr ⟨i + 1, by omega, ?_⟩
                have : p + cs + i * cs = p + (i + 1) * cs := by
                  rw [Nat.succ_mul]
                  omega
                rw [this]
        · rw [if_neg hmore] at h
          by_cases hnil : c ++ jsSlice content p (p + cs) ≠ []
          · rw [if_pos hnil] at h
            simp at h
          · rw [if_neg hnil] at h
            simp at h

/-- Locality of a failing session: a session whose (j+1)-st slice
request fails (0-based countdown `j`) depends only on the first
`p + j·chunkSize` bytes of the content and on the content's total
length — data at or after the failure point cannot influence any
delivered event. -/
theorem runRead_fail_local :
    ∀ (fuel : Nat) (C C' : List Char) (cs cause j p : Nat) (c : List Char)
      (canRead : Bool) (k : Nat),
      C.length = C'.length →
      C.take (p + j * cs) = C'.take (p + j * cs) →
      runRead C cs (fun _ => false) cause fuel (some j) p c canRead k =
        runRead C' cs (fun _ => false) cause fuel (some j) p c canRead k := by
  intro fuel
  induction fuel with
  | zero =>
    intro C C' cs cause j p c canRead k _ _
    rfl
  | succ fuel ih =>
    intro C C' cs cause j p c canRead k hlen htake
    cases j with
    | zero =>
      rw [runRead, runRead, if_pos rfl, if_pos rfl]
    | succ jj =>
      have hcs_le : p + cs ≤ p + (jj + 1) * cs := by
        rw [Nat.succ_mul]
        omega
      have hslice : jsSlice C p (p + cs) = jsSlice C' p (p + cs) := by
        rw [jsSlice, jsSlice]
        have h1 : C.take (p + cs) = C'.take (p + cs) := by
          have e1 : C.take (p + cs) = (C.take (p + (jj + 1) * cs)).take (p + cs) := by
            rw [List.take_take, min_eq_left hcs_le]
          have e2 : C'.take (p + cs) = (C'.take (p + (jj + 1) * cs)).take (p + cs) := by
            rw [List.take_take, min_eq_left hcs_le]
          rw [e1, e2, htake]
        rw [h1]
      have htake' : C.take (p + cs + jj * cs) = C'.take (p + cs + jj * cs) := by
        have e : p + cs + jj * cs = p + (jj + 1) * cs := by
          rw [Nat.succ_mul]
          omega
        rw [e]
        exact htake
      rw [runRead, runRead,
        if_neg (show ¬ (some (jj + 1) : Option Nat) = some 0 by simp),
        if_neg (show ¬ (some (jj + 1) : Option Nat) = some 0 by simp)]
      simp only [Option.map_some', Nat.add_sub_cancel]
      rw [hslice, hlen]
      by_cases hterm : containsTerm (c ++ jsSlice C' p (p + cs)) = true
      · rw [if_pos hterm, if_pos hterm]
        cases hjm : jsMatch (c ++ jsSlice C' p (p + cs)) with
        | none => simp only [hjm]
        | some ls =>
          simp only [hjm]
          by_cases hmore : hasMoreData (p + cs) C'.length = true
          · rw [if_pos hmore, if_pos hmore]
            cases hstep : stepAll (fun _ => false)
              (if (c ++ jsSlice C' p (p + cs)).getLast? = some '\n' then ls
                else ls.dropLast) canRead k with
            | mk evs o =>
              cases o with
              | ended => simp only [hstep]
              | toRead canRead' k' =>
                simp only [hstep]
                rw [ih C C' cs cause jj (p + cs) _ canRead' k' hlen htake']
          · rw [if_neg hmore, if_neg hmore]
      · rw [if_neg hterm, if_neg hterm]
        by_cases hmore : hasMoreData (p + cs) C'.length = true
        · rw [if_pos hmore, if_pos hmore]
          rw [ih C C' cs cause jj (p + cs) _ canRead k hlen htake']
        · rw [if_neg hmore, if_neg hmore]

/-! ### The claims -/

/-- Claim C1, counterexample: the file `"a\n\nb\n"` is an exact
concatenation of the three `\n`-terminated lines `"a"`, `""`, `"b"`,
but the engine delivers only two `line` events — the empty line is
silently dropped by `chunk.match(/[^\r\n]+/g)` — so the claimed trace
of three `line` events does not occur. -/
theorem c1_counterexample :
    delivered (readSimple (joinLines [['a'], [], ['b']]) 1024) =
      [Ev.line ['a'], Ev.line ['b'], Ev.endEv] ∧
    [Ev.line ['a'], Ev.line ['b'], Ev.endEv] ≠
      [Ev.line ['a'], Ev.line [], Ev.line ['b'], Ev.endEv] := by
  decide

/-- Claim C1 (amended): for every file whose content is an exact
concatenation of N lines, each NON-EMPTY, free of terminator
characters and terminated by `\n`, and every chunk size ≥ 1, reading
the file fires exactly N `line` events in the original order, each
payload being the line's text without the terminator, followed by one
`end` event, and the session completes normally. -/
theorem c1_terminated_lines (L : List (List Char)) (cs : Nat) (hcs : 1 ≤ cs)
    (h : ∀ l ∈ L, l ≠ [] ∧ ∀ ch ∈ l, isTerm ch = false) :
    delivered (readSimple (joinLines L) cs) = L.map Ev.line ++ [Ev.endEv] ∧
    (readSimple (joinLines L) cs).out = .ok := by
  have hres := readSimple_clean (joinLines L) cs hcs (clean_joinLines L h)
  rw [splitRuns_joinLines L h] at hres
  exact hres

/-- Witness for C1 (amended) at the two-line file `"a\nbc\n"` with
chunk size 2. -/
theorem c1_terminated_lines_witness :
    delivered (readSimple (joinLines [['a'], ['b', 'c']]) 2) =
      [Ev.line ['a'], Ev.line ['b', 'c'], Ev.endEv] ∧
    (readSimple (joinLines [['a'], ['b', 'c']]) 2).out = .ok :=
  c1_terminated_lines [['a'], ['b', 'c']] 2 (by decide) (by decide)

/-- Claim C2, counterexample: on the file `"a\rb"`, reading with
chunk size 2 delivers the single line `"ab"` (the `\r` at the chunk
boundary is swallowed when the last match is held back), while reading
the whole file as one chunk delivers the two lines `"a"`, `"b"` —
chunk-boundary invariance fails. -/
theorem c2_counterexample :
    deliveredLines (readSimple ['a', '\r', 'b'] 2) = [['a', 'b']] ∧
    deliveredLines (readSimple ['a', '\r', 'b'] 4) = [['a'], ['b']] ∧
    ([['a', 'b']] : List (List Char)) ≠ [['a'], ['b']] := by
  decide

/-- Claim C2 (amended): for every content free of `\r`, of adjacent
newlines and of a leading newline, and any two chunk sizes ≥ 1, the two
runs deliver identical ordered sequences of consumer events
(chunk-boundary invariance on clean contents). -/
theorem c2_chunk_invariance (content : List Char) (cs1 cs2 : Nat)
    (h1 : 1 ≤ cs1) (h2 : 1 ≤ cs2) (hcl : Clean content) :
    delivered (readSimple content cs1) = delivered (readSimple content cs2) := by
  rw [(readSimple_clean content cs1 h1 hcl).1, (readSimple_clean content cs2 h2 hcl).1]

/-- Witness for C2 (amended) at the file `"hi\nyo"` with chunk sizes 2
and 1024. -/
theorem c2_chunk_invariance_witness :
    delivered (readSimple ['h', 'i', '\n', 'y', 'o'] 2) =
      delivered (readSimple ['h', 'i', '\n', 'y', 'o'] 1024) :=
  c2_chunk_invariance ['h', 'i', '\n', 'y', 'o'] 2 1024 (by decide) (by decide) (by decide)

/-- Claim C3: reading the file `"a\nbb\nccc"` with chunk size 3 and a
consumer that acknowledges every line delivers exactly the lines `"a"`,
`"bb"`, `"ccc"` in that order followed by one `end` event, and the
session completes normally. -/
theorem c3_concrete_scenario :
    delivered (readSimple ['a', '\n', 'b', 'b', '\n', 'c', 'c', 'c'] 3) =
      [Ev.line ['a'], Ev.line ['b', 'b'], Ev.line ['c', 'c', 'c'], Ev.endEv] ∧
    (readSimple ['a', '\n', 'b', 'b', '\n', 'c', 'c', 'c'] 3).out = .ok := by
  decide

/-- Claim C4, counterexample: the file `"a\n\nb"` does not end with a
line terminator, yet with chunk size 1 the engine crashes (TypeError on
the `null` result of `chunk.match`) after delivering `"a"`: the final
fragment `"b"` is never delivered and no `end` event fires. -/
theorem c4_counterexample :
    (readSimple ['a', '\n', '\n', 'b'] 1).out = .crashed ∧
    Ev.endEv ∉ (readSimple ['a', '\n', '\n', 'b'] 1).log ∧
    Ev.line ['b'] ∉ (readSimple ['a', '\n', '\n', 'b'] 1).log := by
  decide

/-- Claim C4 (amended): for clean contents (no `\r`, no empty line, no
leading newline) formed of a `\n`-terminated prefix `u` (possibly
empty) followed by a non-empty unterminated fragment `w`, and every
chunk size ≥ 1, the final fragment is delivered as one additional
`line` event after the lines of `u`, followed by exactly one `end`
event. -/
theorem c4_final_fragment (u w : List Char) (cs : Nat) (hcs : 1 ≤ cs)
    (hcl : Clean (u ++ w)) (hw : w ≠ []) (hwt : ∀ ch ∈ w, isTerm ch = false)
    (hu : u = [] ∨ u.getLast? = some '\n') :
    delivered (readSimple (u ++ w) cs) =
      (splitRuns u).map Ev.line ++ [Ev.line w, Ev.endEv] ∧
    (readSimple (u ++ w) cs).out = .ok := by
  obtain ⟨hd, ho⟩ := readSimple_clean (u ++ w) cs hcs hcl
  have hsw : splitRuns (u ++ w) = splitRuns u ++ [w] := by
    rcases hu with rfl | hu
    · rw [List.nil_append, splitRuns_singleRun hw hwt]
      rfl
    · rw [splitRuns_append_term u.length u le_rfl '\n' hu (by decide) w,
        splitRuns_singleRun hw hwt]
  rw [hsw] at hd
  refine ⟨?_, ho⟩
  rw [hd]
  simp

/-- Witness for C4 (amended) at the file `"x\nyz"` with chunk size 3. -/
theorem c4_final_fragment_witness :
    delivered (readSimple (['x', '\n'] ++ ['y', 'z']) 3) =
      (splitRuns ['x', '\n']).map Ev.line ++ [Ev.line ['y', 'z'], Ev.endEv] ∧
    (readSimple (['x', '\n'] ++ ['y', 'z']) 3).out = .ok :=
  c4_final_fragment ['x', '\n'] ['y', 'z'] 3 (by decide) (by decide) (by decide)
    (by decide) (Or.inr (by decide))

/-- Claim C5 is violated by the code: on the file `"a\nb"` with chunk
size 2, a consumer that calls `abort()` inside the callback of the
first delivered line (and then acknowledges) still receives the `line`
event for `"b"` — after abort the queue-empty path of `_step` keeps
reading, and the no-terminator final-fragment emit in `reader.onload`
is not guarded by `canRead`.  This theorem evaluates the model at that
failing input: the full event log contains `line "b"` after the abort
during the callback of line `"a"` (policy aborts at line index 0). -/
theorem c5_line_after_abort :
    readFile freshInternals ['a', '\n', 'b'] 2 (fun k => k == 0) none 0 =
      ⟨[Ev.readReq 0 2, Ev.line ['a'], Ev.readReq 2 4, Ev.line ['b'], Ev.endEv], .ok⟩ := by
  decide

/-- Claim C6, counterexample: a file containing `\r` but no `\n`
(here `"a\rb"`) is not delivered as a single line containing the `\r`:
the splitting regex `/[^\r\n]+/g` treats the lone `\r` as a line
boundary and the engine delivers the two lines `"a"`, `"b"`. -/
theorem c6_counterexample :
    deliveredLines (readSimple ['a', '\r', 'b'] 1024) = [['a'], ['b']] ∧
    ([['a'], ['b']] : List (List Char)) ≠ [['a', '\r', 'b']] := by
  decide

/-- Claim C6 (amended): a lone `\r` is itself recognized as a line
boundary: for non-empty terminator-free `a` and `b` and a chunk size
large enough to read `a ++ "\r" ++ b` in one slice, the engine delivers
the two lines `a` and `b` (the `\r` appears in no payload), followed
by `end`. -/
theorem c6_cr_splits_lines (a b : List Char) (cs : Nat)
    (ha : a ≠ []) (hat : ∀ ch ∈ a, isTerm ch = false)
    (hb : b ≠ []) (hbt : ∀ ch ∈ b, isTerm ch = false)
    (hcs : a.length + b.length + 2 ≤ cs) :
    delivered (readSimple (a ++ '\r' :: b) cs) =
      [Ev.line a, Ev.line b, Ev.endEv] ∧
    (readSimple (a ++ '\r' :: b) cs).out = .ok := by
  have hsr : splitRuns (a ++ '\r' :: b) = [a, b] := by
    have h1 : a ++ '\r' :: b = (a ++ ['\r']) ++ b := by simp
    rw [h1,
      splitRuns_append_term (a ++ ['\r']).length _ le_rfl '\r' (List.getLast?_concat _)
        (by decide) _,
      splitRuns_append_single_term a hat '\r' (by decide),
      splitRuns_singleRun ha hat, splitRuns_singleRun hb hbt]
    rfl
  have hterm : containsTerm (a ++ '\r' :: b) = true := by
    rw [containsTerm, List.any_eq_true]
    exact ⟨'\r', List.mem_append.mpr (Or.inr (List.mem_cons_self _ _)), by decide⟩
  have hne : splitRuns (a ++ '\r' :: b) ≠ [] := by
    rw [hsr]
    simp
  have hlen : (a ++ '\r' :: b).length + 1 ≤ cs := by
    simp only [List.length_append, List.length_cons]
    omega
  have heq : readSimple (a ++ '\r' :: b) cs =
      ⟨Ev.readReq 0 (0 + cs) ::
        ((splitRuns (a ++ '\r' :: b)).map Ev.line ++ [Ev.endEv]), .ok⟩ :=
    runRead_one_chunk (a ++ '\r' :: b) cs ((a ++ '\r' :: b).length + 1) hlen hterm hne
  rw [heq, hsr]
  constructor
  · rw [delivered_mk]
    simp
  · rfl

/-- Witness for C6 (amended) at the file `"x\ry"` with chunk size 8. -/
theorem c6_cr_splits_lines_witness :
    delivered (readSimple (['x'] ++ '\r' :: ['y']) 8) =
      [Ev.line ['x'], Ev.line ['y'], Ev.endEv] ∧
    (readSimple (['x'] ++ '\r' :: ['y']) 8).out = .ok :=
  c6_cr_splits_lines ['x'] ['y'] 8 (by decide) (by decide) (by decide) (by decide)
    (by decide)

/-- Claim C7 is violated by the code: on the file `"\n"` (one bare
newline) with the default chunk size 1024, the decoded chunk consists
only of terminator characters, `chunk.match(/[^\r\n]+/g)` returns
`null`, and the subsequent `internals.lines.length` dereference in
`_step` throws a TypeError: the chunk-completion handler is not total.
The modelled session crashes after the single slice request, delivering
neither a `line` nor an `end` nor an `error` event. -/
theorem c7_terminator_chunk_crashes :
    readSimple ['\n'] 1024 = ⟨[Ev.readReq 0 1024], .crashed⟩ := by
  decide

/-- Claim C8: if the chunk source fails the (j+1)-st slice request
(0-based index `j`), then (a) the session ends normally from the
engine's point of view with the `error` event carrying the injected
cause as the last log entry, immediately after the failing request
`[j·cs, j·cs + cs)`; everything before is `line` events and the j
earlier slice requests — no `end` fires and no request is issued after
the failure (no automatic retry); and (b) the whole session is a
function of the first `j·cs` content bytes and the total length alone,
so no data at or after the failure point can influence or reach any
`line` event. -/
theorem c8_read_failure (content : List Char) (cs j cause : Nat)
    (hfires : Ev.errEv cause ∈ (readWithFailure content cs j cause).log) :
    ((readWithFailure content cs j cause).out = .ok ∧
      Ev.endEv ∉ (readWithFailure content cs j cause).log ∧
      ∃ L, (readWithFailure content cs j cause).log =
          L ++ [Ev.readReq (j * cs) (j * cs + cs), Ev.errEv cause] ∧
        ∀ e ∈ L, (∃ s, e = Ev.line s) ∨
          ∃ i, i < j ∧ e = Ev.readReq (i * cs) (i * cs + cs)) ∧
    ∀ content' : List Char, content'.length = content.length →
      content'.take (j * cs) = content.take (j * cs) →
      readWithFailure content' cs j cause = readWithFailure content cs j cause := by
  constructor
  · have h := runRead_fail_shape (content.length + 2) content cs cause j 0 [] 0 hfires
    simpa [readWithFailure, readFile, freshInternals] using h
  · intro content' hlen htake
    have h := runRead_fail_local (content.length + 2) content' content cs cause j 0 []
      true 0 hlen (by simpa using htake)
    simp only [readWithFailure, readFile, freshInternals]
    rw [hlen]
    exact h

/-- Witness for C8: failure injected on the second slice request of
`"a\nbb"` with chunk size 2 and cause 7. -/
theorem c8_read_failure_witness :
    (readWithFailure ['a', '\n', 'b', 'b'] 2 1 7).out = .ok ∧
    Ev.endEv ∉ (readWithFailure ['a', '\n', 'b', 'b'] 2 1 7).log := by
  have h := c8_read_failure ['a', '\n', 'b', 'b'] 2 1 7 (by decide)
  exact ⟨h.1.1, h.1.2.1⟩

/-- Claim C9: a zero-byte file yields zero `line` events, exactly one
`end` event and exactly one (empty) slice request; and in general,
whenever `readPosition` lands exactly on `totalLength` with an empty
pending buffer, exactly one more (empty) slice request is issued and
its empty decoded result leads directly to `end` — the engine does not
loop issuing further reads. -/
theorem c9_empty_read_then_end (content : List Char) (cs fuel k : Nat) (pol : Policy)
    (cause : Nat) (hcs : 1 ≤ cs) :
    (delivered (readSimple ([] : List Char) cs) = [Ev.endEv] ∧
      (readSimple ([] : List Char) cs).out = .ok ∧
      ((readSimple ([] : List Char) cs).log.filter isReadReq).length = 1) ∧
    runRead content cs pol cause (fuel + 1) none content.length [] true k =
      ⟨[Ev.readReq content.length (content.length + cs), Ev.endEv], .ok⟩ := by
  have h0 : readSimple ([] : List Char) cs =
      ⟨[Ev.readReq 0 (0 + cs), Ev.endEv], .ok⟩ :=
    runRead_at_end [] cs 1 0 (fun _ => false) 0 hcs
  refine ⟨⟨?_, ?_, ?_⟩, runRead_at_end content cs fuel k pol cause hcs⟩
  · rw [h0, delivered_mk]
    rfl
  · rw [h0]
  · rw [h0]
    rfl

/-- Witness for C9 at chunk size 3, and at the resumed state of the
two-byte file `"qr"` with `readPosition = 2`. -/
theorem c9_empty_read_then_end_witness :
    delivered (readSimple ([] : List Char) 3) = [Ev.endEv] ∧
    runRead ['q', 'r'] 3 (fun _ => false) 5 4 none 2 [] true 0 =
      ⟨[Ev.readReq 2 5, Ev.endEv], .ok⟩ := by
  have h := c9_empty_read_then_end ['q', 'r'] 3 3 0 (fun _ => false) 5 (by decide)
  exact ⟨h.1.1, h.2⟩

/-- Claim C10, counterexample: after `abort()`, `canRead` is never
reset, so a subsequent `read(newFile)` does NOT behave like a fresh
instance: on the file `"a\nb"` the post-abort instance (internal state
with `canRead = false`, junk session state) delivers only `end`, while
the fresh instance delivers the two lines and `end`. -/
theorem c10_counterexample :
    readFile ⟨7, ['z'], [['q']], false⟩ ['a', '\n', 'b'] 1024 (fun _ => false) none 0 =
      ⟨[Ev.readReq 0 1024, Ev.endEv], .ok⟩ ∧
    readFile freshInternals ['a', '\n', 'b'] 1024 (fun _ => false) none 0 =
      ⟨[Ev.readReq 0 1024, Ev.line ['a'], Ev.line ['b'], Ev.endEv], .ok⟩ ∧
    (⟨[Ev.readReq 0 1024, Ev.endEv], .ok⟩ : Res) ≠
      ⟨[Ev.readReq 0 1024, Ev.line ['a'], Ev.line ['b'], Ev.endEv], .ok⟩ := by
  decide

/-- Claim C10 (amended): `read(file)` re-initializes the session state
— `readPosition`, the pending buffer and the line queue of any prior
session are discarded — so as long as the instance has not been aborted
(`canRead` still true), a reused instance behaves exactly like a fresh
one on the new file, for every consumer policy and failure pattern. -/
theorem c10_reset_on_read (st : Internals) (hcr : st.canRead = true)
    (content : List Char) (cs : Nat) (pol : Policy) (failAt : Option Nat)
    (cause : Nat) :
    readFile st content cs pol failAt cause =
      readFile freshInternals content cs pol failAt cause := by
  simp only [readFile, freshInternals, hcr]

/-- Witness for C10 (amended): a used but never-aborted instance with
junk session state behaves like a fresh one on the file `"a"`. -/
theorem c10_reset_on_read_witness :
    readFile ⟨5, ['x'], [['y'], ['z']], true⟩ ['a'] 1 (fun _ => false) none 0 =
      readFile freshInternals ['a'] 1 (fun _ => false) none 0 :=
  c10_reset_on_read ⟨5, ['x'], [['y'], ['z']], true⟩ rfl ['a'] 1 (fun _ => false) none 0

end LineReader
